import Mathlib

/-!
# Verification of the vector-space IR engine (`hw2_copy.py`)

Shallow embedding of the vectorization, similarity, ranking and evaluation
functions of the repository.  Python dictionaries (and `collections.Counter`
/ `collections.defaultdict`) are modelled as association lists
`List (key × value)` with distinct keys, kept in insertion order; a lookup of
a missing key in a `Counter`/`defaultdict` yields the default `0`, modelled
by `Option.getD`.  Real (float) arithmetic is modelled exactly over `ℚ`;
`np.log` (used only on integer arguments in the source) is modelled as an
arbitrary function `ℤ → ℝ`, so every statement about `norm_precision` holds
for every interpretation of the logarithm, in particular the real one.
Python's `ZeroDivisionError` is modelled by an `Except String` result.
-/

namespace HW2

/-- The `Document` named tuple of the source: an id and the four token fields. -/
structure Document where
  doc_id : ℕ
  author : List String
  title : List String
  keyword : List String
  abstract : List String
  deriving DecidableEq

/-- `Document.sections` of the source: the four fields in declaration order. -/
def Document.sections (d : Document) : List (List String) :=
  [d.author, d.title, d.keyword, d.abstract]

/-- Sparse term-weight vector: a Python dict `str -> float` as an association
list in insertion order with pairwise-distinct keys. -/
abbrev SparseVec := List (String × ℚ)

/-- Dict lookup `x.get(key, 0)` / `defaultdict(float)` read. -/
def vget (v : SparseVec) (k : String) : ℚ := (v.lookup k).getD 0

/-- `Counter` lookup `doc_freqs[i]`: a missing key counts 0. -/
def dfget (f : List (String × ℕ)) (t : String) : ℕ := (f.lookup t).getD 0

/-- The `TermWeights` named tuple of the source. -/
structure TermWeights where
  author : ℚ
  title : ℚ
  keyword : ℚ
  abstract : ℚ
  deriving DecidableEq

/-- `vec[word] += w` on a `defaultdict(float)`: in-place update of an existing
key (its position is retained), otherwise append the new key with value `w`. -/
def dictIncr (l : SparseVec) (k : String) (w : ℚ) : SparseVec :=
  match l with
  | [] => [(k, w)]
  | (a, v) :: rest => if a = k then (a, v + w) :: rest else (a, v) :: dictIncr rest k w

/-- `vec[word] = w` on a dict: overwrite in place or append. -/
def dictSet (l : SparseVec) (k : String) (w : ℚ) : SparseVec :=
  match l with
  | [] => [(k, w)]
  | (a, v) :: rest => if a = k then (a, w) :: rest else (a, v) :: dictSet rest k w

/-- `freq[word] += 1` on a `Counter`: increment in place or append with count 1. -/
def counterIncr (f : List (String × ℕ)) (w : String) : List (String × ℕ) :=
  match f with
  | [] => [(w, 1)]
  | (a, v) :: rest => if a = w then (a, v + 1) :: rest else (a, v) :: counterIncr rest w

/-- All tokens of a document across its four sections, in section order.
`compute_doc_freqs` builds the Python set of these; only membership matters. -/
def docTermsList (d : Document) : List String :=
  d.author ++ d.title ++ d.keyword ++ d.abstract

/-- `compute_doc_freqs` of the source: for each document, the set of distinct
words over all sections, each contributing 1 to its `Counter` entry.  The
Python set is modelled by `dedup` (iteration order of a set is irrelevant for
the resulting counts). -/
def compute_doc_freqs (docs : List Document) : List (String × ℕ) :=
  docs.foldl (fun freq doc => (docTermsList doc).dedup.foldl counterIncr freq) []

/-- `compute_tf` of the source: accumulate the per-field weight for every
token occurrence, fields processed in the order author, keyword, title,
abstract (the source's statement order).  `doc_freqs` is accepted and ignored,
exactly as in the source. -/
def compute_tf (doc : Document) (_doc_freqs : List (String × ℕ))
    (weights : TermWeights) : SparseVec :=
  let v1 := doc.author.foldl (fun d word => dictIncr d word weights.author) []
  let v2 := doc.keyword.foldl (fun d word => dictIncr d word weights.keyword) v1
  let v3 := doc.title.foldl (fun d word => dictIncr d word weights.title) v2
  doc.abstract.foldl (fun d word => dictIncr d word weights.abstract) v3

/-- `compute_tfidf` of the source: start from `compute_tf`, then replace each
value by `value / doc_freqs[term]`, or by 0 when `doc_freqs[term] == 0` (the
Python loop mutates the values of the same dict, keys and order unchanged). -/
def compute_tfidf (doc : Document) (doc_freqs : List (String × ℕ))
    (weights : TermWeights) : SparseVec :=
  (compute_tf doc doc_freqs weights).map
    (fun p => (p.1, if dfget doc_freqs p.1 ≠ 0 then p.2 / (dfget doc_freqs p.1 : ℚ) else 0))

/-- `compute_boolean` of the source: set every seen token's weight to exactly 1,
fields in the source's order; `doc_freqs` and `weights` are ignored. -/
def compute_boolean (doc : Document) (_doc_freqs : List (String × ℕ))
    (_weights : TermWeights) : SparseVec :=
  let v1 := doc.author.foldl (fun d word => dictSet d word 1) []
  let v2 := doc.keyword.foldl (fun d word => dictSet d word 1) v1
  let v3 := doc.title.foldl (fun d word => dictSet d word 1) v2
  doc.abstract.foldl (fun d word => dictSet d word 1) v3

/-- `sum(list(v.values()))`. -/
def sumv (v : SparseVec) : ℚ := (v.map Prod.snd).sum

/-- `dictdot` of the source: iterate over the keys of the shorter dict,
summing `x.get(k, 0) * y.get(k, 0)`. -/
def dictdot (x y : SparseVec) : ℚ :=
  let keys := if x.length < y.length then x.map Prod.fst else y.map Prod.fst
  (keys.map (fun k => vget x k * vget y k)).sum

/-- `dice_sim` of the source. -/
def dice_sim (x y : SparseVec) : ℚ :=
  let num := dictdot x y
  if num = 0 then 0 else (2 * num) / (sumv x + sumv y)

/-- `jaccard_sim` of the source, with its `1/10000000` zero-denominator sentinel. -/
def jaccard_sim (x y : SparseVec) : ℚ :=
  let num := dictdot x y
  if num = 0 then 0
  else if sumv x + sumv y - num = 0 then 1 / 10000000
  else num / (sumv x + sumv y - num)

/-- `overlap_sim` of the source. -/
def overlap_sim (x y : SparseVec) : ℚ :=
  let num := dictdot x y
  if num = 0 then 0 else num / min (sumv x) (sumv y)

/-- `interpolate` of the source.  Python raises `ZeroDivisionError` when
`x2 - x1 == 0` (both for `int` and `float` operands); this is modelled by an
`Except` result. -/
def interpolate (x1 y1 x2 y2 x : ℚ) : Except String ℚ :=
  if x2 - x1 = 0 then .error "ZeroDivisionError"
  else
    let m := (y2 - y1) / (x2 - x1)
    let b := y1 - m * x1
    .ok (m * x + b)

/-- The scan loop of `precision_at`: state is (`lower_r`, `lower_p`, `tp`, `c`);
on the break (first instantaneous recall strictly above the target) the pair
just computed becomes (`upper_r`, `upper_p`), otherwise the initial upper
values `(0, 1)` survive to the end. -/
def paLoop (rc : ℚ) (relevant : List ℕ) :
    List ℕ → ℚ → ℚ → ℕ → ℕ → ℚ × ℚ × ℚ × ℚ
  | [], lr, lp, _tp, _c => (lr, lp, 0, 1)
  | i :: rest, lr, lp, tp, c =>
    if i ∈ relevant then
      let p1 : ℚ := ((tp + 1 : ℕ) : ℚ) / ((c + 1 : ℕ) : ℚ)
      let r1 : ℚ := ((tp + 1 : ℕ) : ℚ) / (relevant.length : ℚ)
      if rc < r1 then (lr, lp, r1, p1)
      else paLoop rc relevant rest r1 p1 (tp + 1) (c + 1)
    else paLoop rc relevant rest lr lp tp (c + 1)

/-- `precision_at` of the source: run the scan from the initial state
`lower = (0, 1)`, `upper = (0, 1)`, `tp = c = 0` and interpolate. -/
def precision_at (rc : ℚ) (results relevant : List ℕ) : Except String ℚ :=
  match paLoop rc relevant results 0 1 0 0 with
  | (lr, lp, ur, up) => interpolate lr lp ur up rc

/-- The achieved (recall, precision) points of a scan of `results`: one point
per hit of `relevant`, with running true-positive count `tp` and examined
count `c`. -/
def achievedPoints (relevant : List ℕ) : List ℕ → ℕ → ℕ → List (ℚ × ℚ)
  | [], _tp, _c => []
  | i :: rest, tp, c =>
    if i ∈ relevant then
      (((tp + 1 : ℕ) : ℚ) / (relevant.length : ℚ),
        ((tp + 1 : ℕ) : ℚ) / ((c + 1 : ℕ) : ℚ)) :: achievedPoints relevant rest (tp + 1) (c + 1)
    else achievedPoints relevant rest tp (c + 1)

/-- All achieved (recall, precision) points of the full scan. -/
def prPoints (results relevant : List ℕ) : List (ℚ × ℚ) :=
  achievedPoints relevant results 0 0

/-- Spec-side lower bracketing point: the last achieved point with recall at
most the target; the implicit anchor `(0, 1)` when no such point exists. -/
def lowerBracket (t : ℚ) (pts : List (ℚ × ℚ)) : ℚ × ℚ :=
  (pts.filter (fun p => p.1 ≤ t)).getLastD (0, 1)

/-- Spec-side upper bracketing point: the first achieved point with recall
strictly above the target; the anchor `(0, 1)` when no such point exists
(which is also the loop's untouched initial upper state). -/
def upperBracket (t : ℚ) (pts : List (ℚ × ℚ)) : ℚ × ℚ :=
  ((pts.filter (fun p => t < p.1)).head?).getD (0, 1)

/-- The inner scan of `calc_rank`: first 1-based position of `r` in the list,
`none` when absent (the Python loop then appends nothing). -/
def findRank (results : List ℕ) (r : ℕ) (c : ℕ) : Option ℕ :=
  match results with
  | [] => none
  | j :: rest => if j = r then some c else findRank rest r (c + 1)

/-- `calc_rank` of the source: the 1-based rank of each relevant id in the
results, in relevance-list order; ids absent from the results are skipped. -/
def calc_rank (results relevant : List ℕ) : List ℕ :=
  match relevant with
  | [] => []
  | r :: rest =>
    match findRank results r 1 with
    | some c => c :: calc_rank results rest
    | none => calc_rank results rest

/-- `norm_precision` of the source, parametric in the interpretation `log`
of `np.log` and in the field of scalars (every argument of `np.log` in the
source is an integer); instantiating `K := ℝ`, `log := Real.log` composed with
the cast gives the real-number reading.  The loops
`for i in range(0, len(relevant))` read `log_rank_list[i]` / `log_i_list[i]`;
the out-of-range read (a Python `IndexError`, reachable only when some
relevant id is missing from the results) is modelled by `getD _ 0`. -/
def norm_precision {K : Type*} [Field K] (log : ℤ → K) (results relevant : List ℕ) : K :=
  let r_Rel : ℕ := relevant.length
  let n_N : ℕ := results.length
  let rank := calc_rank results relevant
  let log_rank_list := rank.map (fun x : ℕ => log (x : ℤ))
  let log_i_list := (List.range relevant.length).map (fun i => log ((i + 1 : ℕ) : ℤ))
  let log_rank := ((List.range r_Rel).map (fun i => log_rank_list.getD i 0)).sum
  let log_i := ((List.range r_Rel).map (fun i => log_i_list.getD i 0)).sum
  let log_n : K := (n_N : K) * log (n_N : ℤ)
  let n_rel_log : K := (((n_N : ℤ) - (r_Rel : ℤ)) : K) * log ((n_N : ℤ) - (r_Rel : ℤ))
  let log_rel : K := (r_Rel : K) * log (r_Rel : ℤ)
  1 - ((log_rank - log_i) / (log_n - n_rel_log - log_rel))

/-- The scored pair list of `search`: `(doc_id + 1, sim(query_vec, doc_vec))`
for each document in input order. -/
def results_with_score (doc_vectors : List SparseVec) (query_vec : SparseVec)
    (sim : SparseVec → SparseVec → ℚ) : List (ℕ × ℚ) :=
  doc_vectors.enum.map (fun p => (p.1 + 1, sim query_vec p.2))

/-- The `sorted(..., key=lambda x: -x[1])` step of `search`.  Python's sort is
a stable sort by the key `-score`, i.e. the unique stable sort for the total
preorder `-a.2 ≤ -b.2` (equivalently `b.2 ≤ a.2`); it is modelled by
Mathlib's (stable) insertion sort for that relation. -/
def sortedResults (doc_vectors : List SparseVec) (query_vec : SparseVec)
    (sim : SparseVec → SparseVec → ℚ) : List (ℕ × ℚ) :=
  (results_with_score doc_vectors query_vec sim).insertionSort (fun a b => -a.2 ≤ -b.2)

/-- `search` of the source: the document ids of the score-sorted pair list. -/
def search (doc_vectors : List SparseVec) (query_vec : SparseVec)
    (sim : SparseVec → SparseVec → ℚ) : List ℕ :=
  (sortedResults doc_vectors query_vec sim).map Prod.fst

/-! ## Association-list lookup helpers -/

theorem lookup_cons_eq_ite {β : Type*} (a k : String) (v : β) (l : List (String × β)) :
    ((a, v) :: l).lookup k = if k = a then some v else l.lookup k := by
  by_cases h : k = a
  · simp [List.lookup, h]
  · simp [List.lookup, h, beq_false_of_ne h]

theorem lookup_map_value (g : String → ℚ → ℚ) (l : SparseVec) (k : String) :
    (l.map (fun p => (p.1, g p.1 p.2))).lookup k = (l.lookup k).map (g k) := by
  induction l with
  | nil => rfl
  | cons p rest ih =>
    obtain ⟨a, v⟩ := p
    by_cases h : k = a
    · simp [lookup_cons_eq_ite, h]
    · simpa [lookup_cons_eq_ite, h] using ih

theorem mem_of_lookup_eq_some {β : Type*} {l : List (String × β)} {k : String} {v : β}
    (h : l.lookup k = some v) : (k, v) ∈ l := by
  induction l with
  | nil => simp [List.lookup] at h
  | cons p rest ih =>
    obtain ⟨a, b⟩ := p
    rw [lookup_cons_eq_ite] at h
    by_cases hk : k = a
    · rw [if_pos hk] at h
      obtain rfl := Option.some.inj h
      simp [hk]
    · rw [if_neg hk] at h
      exact List.mem_cons_of_mem _ (ih h)

theorem lookup_eq_some_of_mem_of_nodup {β : Type*} {l : List (String × β)} {k : String} {v : β}
    (hmem : (k, v) ∈ l) (hnd : (l.map Prod.fst).Nodup) : l.lookup k = some v := by
  induction l with
  | nil => simp at hmem
  | cons p rest ih =>
    obtain ⟨a, b⟩ := p
    rw [List.map_cons, List.nodup_cons] at hnd
    rcases List.mem_cons.mp hmem with heq | hmem'
    · obtain ⟨rfl, rfl⟩ := Prod.mk.injEq .. ▸ heq
      simp [lookup_cons_eq_ite]
    · have hka : k ≠ a := by
        rintro rfl
        exact hnd.1 (List.mem_map.mpr ⟨(k, v), hmem', rfl⟩)
      rw [lookup_cons_eq_ite, if_neg hka]
      exact ih hmem' hnd.2

/-! ## C4: the tfidf weighting divides each accumulated weight by the term's
document frequency, and maps it to 0 when that frequency is 0 -/

/-- **C4.** For every document, document-frequency table and weights, the
term-level content of `compute_tfidf`: every term's weight in the result is
the `compute_tf` weight divided by the term's document frequency, and exactly
0 when that document frequency is 0.  The `Counter` lookup `doc_freqs[i]` is
total (default 0), so a term absent from the table never raises; it falls
into the 0 branch.  Stated for all weights (a fortiori for non-negative
ones) and for every term, present in the vector or not. -/
theorem compute_tfidf_entry_spec (doc : Document) (df : List (String × ℕ))
    (w : TermWeights) (term : String) :
    vget (compute_tfidf doc df w) term =
      if dfget df term = 0 then 0
      else vget (compute_tf doc df w) term / (dfget df term : ℚ) := by
  unfold compute_tfidf vget
  rw [lookup_map_value (fun k v => if dfget df k ≠ 0 then v / (dfget df k : ℚ) else 0)]
  rcases h : (compute_tf doc df w).lookup term with _ | v
  · by_cases hdf : dfget df term = 0 <;> simp [hdf]
  · by_cases hdf : dfget df term = 0 <;> simp [hdf]

/-! ## C8: the jaccard zero-denominator sentinel -/

/-- **C8.** For non-negatively weighted sparse vectors: when the dot product
is non-zero but `sum(x) + sum(y) - dot` is exactly 0, `jaccard_sim` returns
the small positive sentinel `1/10000000` instead of dividing by zero; and
whenever the dot product is 0 it returns 0. -/
theorem jaccard_sentinel_spec (x y : SparseVec)
    (hx : ∀ p ∈ x, 0 ≤ p.2) (hy : ∀ p ∈ y, 0 ≤ p.2) :
    (dictdot x y ≠ 0 → sumv x + sumv y - dictdot x y = 0 →
        jaccard_sim x y = 1 / 10000000 ∧ 0 < (1 / 10000000 : ℚ)) ∧
      (dictdot x y = 0 → jaccard_sim x y = 0) := by
  constructor
  · intro hnum hden
    refine ⟨?_, by norm_num⟩
    simp only [jaccard_sim]
    rw [if_neg hnum, if_pos hden]
  · intro hnum
    simp only [jaccard_sim]
    rw [if_pos hnum]

/-- Witness for C8 at concrete inputs: `x = y = {"a": 2}` hits the sentinel
branch (`dot = 4`, `sum + sum - dot = 0`), and two empty dicts hit the
zero-dot-product branch. -/
theorem jaccard_sentinel_spec_witness :
    jaccard_sim [("a", 2)] [("a", 2)] = 1 / 10000000 ∧ jaccard_sim [] [] = 0 :=
  ⟨((jaccard_sentinel_spec [("a", 2)] [("a", 2)] (by decide) (by decide)).1
      (by norm_num [dictdot, vget, sumv, List.lookup])
      (by norm_num [dictdot, vget, sumv, List.lookup])).1,
    (jaccard_sentinel_spec [] [] (by simp) (by simp)).2 (by norm_num [dictdot])⟩

/-! ## C9: empty relevance list makes precision_at fail -/

theorem paLoop_empty_relevant (rc : ℚ) :
    ∀ (l : List ℕ) (lr lp : ℚ) (tp c : ℕ), paLoop rc [] l lr lp tp c = (lr, lp, 0, 1) := by
  intro l
  induction l with
  | nil => intro lr lp tp c; rfl
  | cons i rest ih => intro lr lp tp c; simpa [paLoop] using ih lr lp tp (c + 1)

/-- **C9.** For every results list and every target recall, `precision_at`
with an empty relevance list fails with an explicit `ZeroDivisionError`
(the scan never fires, so `interpolate(0, 1, 0, 1, ·)` divides by
`x2 - x1 = 0`); it never silently returns a number. -/
theorem precision_at_empty_relevant_error (rc : ℚ) (results : List ℕ) :
    precision_at rc results [] = .error "ZeroDivisionError" := by
  simp [precision_at, paLoop_empty_relevant, interpolate]

/-! ## C10: compute_tf and compute_boolean ignore the document-frequency table -/

/-- **C10.** Two-run noninterference of the raw-weighted-frequency and boolean
schemes with respect to the document-frequency table: for every document and
weights, any two tables produce identical vectors (the source never reads the
`doc_freqs` argument in either function). -/
theorem tf_boolean_doc_freqs_noninterference (doc : Document) (w : TermWeights)
    (df₁ df₂ : List (String × ℕ)) :
    compute_tf doc df₁ w = compute_tf doc df₂ w ∧
      compute_boolean doc df₁ w = compute_boolean doc df₂ w :=
  ⟨rfl, rfl⟩

/-! ## C7: compute_doc_freqs counts containing documents -/

theorem dfget_cons (a : String) (v : ℕ) (l : List (String × ℕ)) (t : String) :
    dfget ((a, v) :: l) t = if t = a then v else dfget l t := by
  by_cases h : t = a <;> simp [dfget, lookup_cons_eq_ite, h]

theorem dfget_counterIncr (f : List (String × ℕ)) (w t : String) :
    dfget (counterIncr f w) t = dfget f t + if t = w then 1 else 0 := by
  induction f with
  | nil =>
    by_cases h : t = w <;> simp [counterIncr, dfget, lookup_cons_eq_ite, h]
  | cons p rest ih =>
    obtain ⟨a, v⟩ := p
    by_cases haw : a = w
    · subst haw
      by_cases h : t = a <;> simp [counterIncr, dfget_cons, h]
    · by_cases h : t = a
      · subst h
        simp [counterIncr, haw, dfget_cons]
      · simp [counterIncr, haw, dfget_cons, h, ih]

theorem dfget_foldl_counterIncr (t : String) :
    ∀ (ws : List String) (f : List (String × ℕ)),
      dfget (ws.foldl counterIncr f) t = dfget f t + ws.count t := by
  intro ws
  induction ws with
  | nil => intro f; simp
  | cons w ws ih =>
    intro f
    rw [List.foldl_cons, ih, dfget_counterIncr]
    by_cases h : t = w
    · subst h
      simp [List.count_cons]
      omega
    · simp [List.count_cons, h, Ne.symm h]

theorem dfget_compute_doc_freqs_aux (t : String) :
    ∀ (docs : List Document) (f : List (String × ℕ)),
      dfget (docs.foldl (fun freq doc => (docTermsList doc).dedup.foldl counterIncr freq) f) t
        = dfget f t + (docs.filter (fun d => t ∈ docTermsList d)).length := by
  intro docs
  induction docs with
  | nil => intro f; simp
  | cons d ds ih =>
    intro f
    rw [List.foldl_cons, ih, dfget_foldl_counterIncr, List.count_dedup]
    by_cases h : t ∈ docTermsList d <;> simp [h, List.filter_cons] <;> omega

theorem counterIncr_keys (f : List (String × ℕ)) (w : String) :
    (counterIncr f w).map Prod.fst =
      if w ∈ f.map Prod.fst then f.map Prod.fst else f.map Prod.fst ++ [w] := by
  induction f with
  | nil => simp [counterIncr]
  | cons p rest ih =>
    obtain ⟨a, v⟩ := p
    by_cases haw : a = w
    · subst haw
      simp [counterIncr]
    · by_cases hw : w ∈ rest.map Prod.fst <;>
        simp [counterIncr, haw, Ne.symm haw, ih, hw]

theorem counterIncr_keys_nodup {f : List (String × ℕ)} (h : (f.map Prod.fst).Nodup)
    (w : String) : ((counterIncr f w).map Prod.fst).Nodup := by
  rw [counterIncr_keys]
  by_cases hw : w ∈ f.map Prod.fst
  · simpa [hw] using h
  · simp [hw, List.nodup_append, h]

theorem counterIncr_values_pos {f : List (String × ℕ)} (h : ∀ p ∈ f, 1 ≤ p.2)
    (w : String) : ∀ p ∈ counterIncr f w, 1 ≤ p.2 := by
  induction f with
  | nil =>
    intro p hp
    simp [counterIncr] at hp
    simp [hp]
  | cons q rest ih =>
    obtain ⟨a, v⟩ := q
    intro p hp
    by_cases haw : a = w
    · subst haw
      simp only [counterIncr, if_pos rfl] at hp
      cases hp with
      | head => simp
      | tail _ hp' => exact h p (List.mem_cons_of_mem _ hp')
    · simp only [counterIncr, if_neg haw] at hp
      cases hp with
      | head => exact h (a, v) (by simp)
      | tail _ hp' => exact ih (fun q hq => h q (List.mem_cons_of_mem _ hq)) p hp'

theorem foldl_counterIncr_keys_nodup :
    ∀ (ws : List String) {f : List (String × ℕ)}, (f.map Prod.fst).Nodup →
      ((ws.foldl counterIncr f).map Prod.fst).Nodup := by
  intro ws
  induction ws with
  | nil => intro f h; simpa using h
  | cons w ws ih => intro f h; exact ih (counterIncr_keys_nodup h w)

theorem foldl_counterIncr_values_pos :
    ∀ (ws : List String) {f : List (String × ℕ)}, (∀ p ∈ f, 1 ≤ p.2) →
      ∀ p ∈ ws.foldl counterIncr f, 1 ≤ p.2 := by
  intro ws
  induction ws with
  | nil => intro f h; simpa using h
  | cons w ws ih => intro f h; exact ih (counterIncr_values_pos h w)

theorem compute_doc_freqs_keys_nodup (docs : List Document) :
    ((compute_doc_freqs docs).map Prod.fst).Nodup := by
  have aux : ∀ (ds : List Document) (f : List (String × ℕ)), (f.map Prod.fst).Nodup →
      ((ds.foldl (fun freq doc => (docTermsList doc).dedup.foldl counterIncr freq) f).map
        Prod.fst).Nodup := by
    intro ds
    induction ds with
    | nil => intro f h; simpa using h
    | cons d ds ih => intro f h; exact ih _ (foldl_counterIncr_keys_nodup _ h)
  exact aux docs [] (by simp)

theorem compute_doc_freqs_values_pos (docs : List Document) :
    ∀ p ∈ compute_doc_freqs docs, 1 ≤ p.2 := by
  have aux : ∀ (ds : List Document) (f : List (String × ℕ)), (∀ p ∈ f, 1 ≤ p.2) →
      ∀ p ∈ ds.foldl (fun freq doc => (docTermsList doc).dedup.foldl counterIncr freq) f,
        1 ≤ p.2 := by
    intro ds
    induction ds with
    | nil => intro f h; simpa using h
    | cons d ds ih => intro f h; exact ih _ (foldl_counterIncr_values_pos _ h)
  exact aux docs [] (by simp)

/-- **C7.** `compute_doc_freqs` implements document frequency: the count
recorded for each term equals the number of documents of the corpus containing
it in at least one of the four fields (several occurrences of a term within
one document count once, via the per-document set of distinct terms), and
every count stored in the table lies in `[1, corpus size]`. -/
theorem compute_doc_freqs_spec (docs : List Document) :
    (∀ t, dfget (compute_doc_freqs docs) t
        = (docs.filter (fun d => t ∈ docTermsList d)).length) ∧
      (∀ p ∈ compute_doc_freqs docs, 1 ≤ p.2 ∧ p.2 ≤ docs.length) := by
  have h1 : ∀ t, dfget (compute_doc_freqs docs) t
      = (docs.filter (fun d => t ∈ docTermsList d)).length := by
    intro t
    have := dfget_compute_doc_freqs_aux t docs []
    simpa [compute_doc_freqs, dfget] using this
  refine ⟨h1, fun p hp => ⟨compute_doc_freqs_values_pos docs p hp, ?_⟩⟩
  have hl : (compute_doc_freqs docs).lookup p.1 = some p.2 :=
    lookup_eq_some_of_mem_of_nodup (by simpa using hp) (compute_doc_freqs_keys_nodup docs)
  have : dfget (compute_doc_freqs docs) p.1 = p.2 := by simp [dfget, hl]
  rw [h1 p.1] at this
  rw [← this]
  exact List.length_filter_le _ _

/-! ## C6: support of the produced sparse vectors -/

theorem dictIncr_values_pos {d : SparseVec} {w : ℚ} (hw : 0 < w)
    (hd : ∀ p ∈ d, 0 < p.2) (k : String) : ∀ p ∈ dictIncr d k w, 0 < p.2 := by
  induction d with
  | nil =>
    intro p hp
    simp only [dictIncr] at hp
    cases hp with
    | head => simpa using hw
    | tail _ hp' => cases hp'
  | cons q rest ih =>
    obtain ⟨a, v⟩ := q
    intro p hp
    by_cases hak : a = k
    · simp only [dictIncr, if_pos hak] at hp
      cases hp with
      | head =>
        have hv : 0 < v := hd (a, v) (by simp)
        simpa using add_pos hv hw
      | tail _ hp' => exact hd p (List.mem_cons_of_mem _ hp')
    · simp only [dictIncr, if_neg hak] at hp
      cases hp with
      | head => exact hd (a, v) (by simp)
      | tail _ hp' => exact ih (fun q hq => hd q (List.mem_cons_of_mem _ hq)) p hp'

theorem dictSet_values_pos {d : SparseVec} {w : ℚ} (hw : 0 < w)
    (hd : ∀ p ∈ d, 0 < p.2) (k : String) : ∀ p ∈ dictSet d k w, 0 < p.2 := by
  induction d with
  | nil =>
    intro p hp
    simp only [dictSet] at hp
    cases hp with
    | head => simpa using hw
    | tail _ hp' => cases hp'
  | cons q rest ih =>
    obtain ⟨a, v⟩ := q
    intro p hp
    by_cases hak : a = k
    · simp only [dictSet, if_pos hak] at hp
      cases hp with
      | head => simpa using hw
      | tail _ hp' => exact hd p (List.mem_cons_of_mem _ hp')
    · simp only [dictSet, if_neg hak] at hp
      cases hp with
      | head => exact hd (a, v) (by simp)
      | tail _ hp' => exact ih (fun q hq => hd q (List.mem_cons_of_mem _ hq)) p hp'

theorem foldl_dictIncr_values_pos {w : ℚ} (hw : 0 < w) :
    ∀ (ws : List String) (d : SparseVec), (∀ p ∈ d, 0 < p.2) →
      ∀ p ∈ ws.foldl (fun d word => dictIncr d word w) d, 0 < p.2 := by
  intro ws
  induction ws with
  | nil => intro d hd; simpa using hd
  | cons word ws ih => intro d hd; exact ih _ (dictIncr_values_pos hw hd word)

theorem foldl_dictSet_values_pos {w : ℚ} (hw : 0 < w) :
    ∀ (ws : List String) (d : SparseVec), (∀ p ∈ d, 0 < p.2) →
      ∀ p ∈ ws.foldl (fun d word => dictSet d word w) d, 0 < p.2 := by
  intro ws
  induction ws with
  | nil => intro d hd; simpa using hd
  | cons word ws ih => intro d hd; exact ih _ (dictSet_values_pos hw hd word)

theorem dictIncr_keys_mem {d : SparseVec} {k x : String} {w : ℚ}
    (hx : x ∈ (dictIncr d k w).map Prod.fst) : x = k ∨ x ∈ d.map Prod.fst := by
  induction d with
  | nil =>
    simp [dictIncr] at hx
    exact Or.inl hx
  | cons q rest ih =>
    obtain ⟨a, v⟩ := q
    by_cases hak : a = k
    · simp only [dictIncr, if_pos hak, List.map_cons, List.mem_cons] at hx
      rcases hx with rfl | hx
      · exact Or.inr (by simp)
      · exact Or.inr (by simp [hx])
    · simp only [dictIncr, if_neg hak, List.map_cons, List.mem_cons] at hx
      rcases hx with rfl | hx
      · exact Or.inr (by simp)
      · rcases ih hx with h | h
        · exact Or.inl h
        · exact Or.inr (by simp [h])

theorem foldl_dictIncr_keys {w : ℚ} :
    ∀ (ws : List String) (d : SparseVec) (x : String),
      x ∈ (ws.foldl (fun d word => dictIncr d word w) d).map Prod.fst →
        x ∈ ws ∨ x ∈ d.map Prod.fst := by
  intro ws
  induction ws with
  | nil => intro d x hx; exact Or.inr (by simpa using hx)
  | cons word ws ih =>
    intro d x hx
    rcases ih _ x hx with h | h
    · exact Or.inl (List.mem_cons_of_mem _ h)
    · rcases dictIncr_keys_mem h with rfl | h'
      · exact Or.inl (by simp)
      · exact Or.inr h'

theorem compute_tf_keys (doc : Document) (df : List (String × ℕ)) (w : TermWeights) :
    ∀ p ∈ compute_tf doc df w, p.1 ∈ docTermsList doc := by
  intro p hp
  have hx : p.1 ∈ (compute_tf doc df w).map Prod.fst := List.mem_map.mpr ⟨p, hp, rfl⟩
  unfold compute_tf at hx
  rcases foldl_dictIncr_keys _ _ _ hx with h | hx
  · simp [docTermsList, h]
  rcases foldl_dictIncr_keys _ _ _ hx with h | hx
  · simp [docTermsList, h]
  rcases foldl_dictIncr_keys _ _ _ hx with h | hx
  · simp [docTermsList, h]
  rcases foldl_dictIncr_keys _ _ _ hx with h | hx
  · simp [docTermsList, h]
  · simp at hx

/-- **C6, counterexample.**  The claim fails on the code in two ways.  With the
non-negative weights `(author=0, title=1, keyword=1, abstract=1)` the
raw-weighted-frequency vector of the document with author field `["a"]`
contains the key `"a"` with weight 0; and with strictly positive weights the
tfidf vector of a document whose term `"b"` has document frequency 0 contains
the key `"b"` with weight 0. -/
theorem sparse_vector_zero_weight_key_counterexample :
    ("a", (0 : ℚ)) ∈ compute_tf ⟨1, ["a"], [], [], []⟩ [] ⟨0, 1, 1, 1⟩ ∧
      ("b", (0 : ℚ)) ∈ compute_tfidf ⟨1, ["b"], [], [], []⟩ [] ⟨1, 1, 1, 1⟩ := by
  constructor
  · simp [compute_tf, dictIncr]
  · simp [compute_tfidf, compute_tf, dictIncr, dfget, List.lookup]

/-- **C6, amended.**  The zero-free-support invariant of `SparseVector` holds
with the two provisos the counterexample forces: the field weights must be
strictly positive (a zero field weight plants a zero-weight key), and for the
tfidf scheme every term of the document must additionally have non-zero
document frequency (the df = 0 guard plants a zero-weight key).  The boolean
scheme satisfies it for any weights, since it stores the constant 1; it is
stated under the same positivity hypotheses as the rest. -/
theorem sparse_vector_nonzero_support_amended (doc : Document)
    (df : List (String × ℕ)) (w : TermWeights) (ha : 0 < w.author)
    (ht : 0 < w.title) (hk : 0 < w.keyword) (hab : 0 < w.abstract) :
    (∀ p ∈ compute_tf doc df w, p.2 ≠ 0) ∧
      (∀ p ∈ compute_boolean doc df w, p.2 ≠ 0) ∧
      ((∀ t ∈ docTermsList doc, dfget df t ≠ 0) →
        ∀ p ∈ compute_tfidf doc df w, p.2 ≠ 0) := by
  have htf : ∀ p ∈ compute_tf doc df w, 0 < p.2 := by
    unfold compute_tf
    exact foldl_dictIncr_values_pos hab _ _
      (foldl_dictIncr_values_pos ht _ _
        (foldl_dictIncr_values_pos hk _ _
          (foldl_dictIncr_values_pos ha _ _ (by simp))))
  refine ⟨fun p hp => ne_of_gt (htf p hp), ?_, ?_⟩
  · have hb : ∀ p ∈ compute_boolean doc df w, 0 < p.2 := by
      unfold compute_boolean
      exact foldl_dictSet_values_pos one_pos _ _
        (foldl_dictSet_values_pos one_pos _ _
          (foldl_dictSet_values_pos one_pos _ _
            (foldl_dictSet_values_pos one_pos _ _ (by simp))))
    exact fun p hp => ne_of_gt (hb p hp)
  · intro hdf p hp
    unfold compute_tfidf at hp
    rcases List.mem_map.mp hp with ⟨q, hq, hpq⟩
    have hdfq : dfget df q.1 ≠ 0 := hdf q.1 (compute_tf_keys doc df w q hq)
    have hv : 0 < q.2 := htf q hq
    have : p.2 = q.2 / (dfget df q.1 : ℚ) := by
      rw [← hpq]
      simp [hdfq]
    rw [this]
    exact ne_of_gt (div_pos hv (by exact_mod_cast Nat.pos_of_ne_zero hdfq))

/-- Witness for the amended C6: a concrete document, table and all-ones
weights satisfying the hypotheses. -/
theorem sparse_vector_nonzero_support_amended_witness :
    (∀ p ∈ compute_tf ⟨1, ["a"], [], ["b"], []⟩ [("a", 1), ("b", 2)] ⟨1, 1, 1, 1⟩,
        p.2 ≠ 0) ∧
      (∀ p ∈ compute_boolean ⟨1, ["a"], [], ["b"], []⟩ [("a", 1), ("b", 2)] ⟨1, 1, 1, 1⟩,
        p.2 ≠ 0) ∧
      ((∀ t ∈ docTermsList ⟨1, ["a"], [], ["b"], []⟩,
          dfget [("a", 1), ("b", 2)] t ≠ 0) →
        ∀ p ∈ compute_tfidf ⟨1, ["a"], [], ["b"], []⟩ [("a", 1), ("b", 2)] ⟨1, 1, 1, 1⟩,
          p.2 ≠ 0) :=
  sparse_vector_nonzero_support_amended _ _ _
    (by norm_num) (by norm_num) (by norm_num) (by norm_num)

/-! ## C3: range of the dice, jaccard and overlap similarities -/

theorem vget_cons (a : String) (v : ℚ) (l : SparseVec) (k : String) :
    vget ((a, v) :: l) k = if k = a then v else vget l k := by
  by_cases h : k = a <;> simp [vget, lookup_cons_eq_ite, h]

theorem vget_eq_zero_of_not_mem_keys {l : SparseVec} {k : String}
    (h : k ∉ l.map Prod.fst) : vget l k = 0 := by
  induction l with
  | nil => rfl
  | cons p rest ih =>
    obtain ⟨a, v⟩ := p
    simp only [List.map_cons, List.mem_cons] at h
    push_neg at h
    rw [vget_cons, if_neg h.1]
    exact ih h.2

theorem vget_nonneg {x : SparseVec} (hx : ∀ p ∈ x, 0 ≤ p.2) (k : String) :
    0 ≤ vget x k := by
  rcases h : x.lookup k with _ | v
  · simp [vget, h]
  · have := hx (k, v) (mem_of_lookup_eq_some h)
    simpa [vget, h] using this

theorem vget_le_one {x : SparseVec} (hx : ∀ p ∈ x, p.2 ≤ 1) (k : String) :
    vget x k ≤ 1 := by
  rcases h : x.lookup k with _ | v
  · simp [vget, h]
  · have := hx (k, v) (mem_of_lookup_eq_some h)
    simpa [vget, h] using this

theorem sum_map_add_distrib (K : List String) (f g : String → ℚ) :
    (K.map (fun k => f k + g k)).sum = (K.map f).sum + (K.map g).sum := by
  induction K with
  | nil => simp
  | cons k K ih => simp [ih]; ring

theorem sum_ite_eq_zero_of_not_mem {K : List String} {a : String} (v : ℚ)
    (h : a ∉ K) : (K.map (fun k => if k = a then v else 0)).sum = 0 := by
  induction K with
  | nil => simp
  | cons k K ih =>
    simp only [List.mem_cons] at h
    push_neg at h
    simp [Ne.symm h.1, ih h.2]

theorem sum_ite_le {K : List String} {a : String} {v : ℚ} (hK : K.Nodup)
    (hv : 0 ≤ v) : (K.map (fun k => if k = a then v else 0)).sum ≤ v := by
  induction K with
  | nil => simpa using hv
  | cons k K ih =>
    rw [List.nodup_cons] at hK
    by_cases hka : k = a
    · subst hka
      rw [List.map_cons, List.sum_cons, if_pos rfl, sum_ite_eq_zero_of_not_mem v hK.1]
      simp
    · rw [List.map_cons, List.sum_cons, if_neg hka, zero_add]
      exact ih hK.2

theorem sum_vget_le {K : List String} (hK : K.Nodup) :
    ∀ {x : SparseVec}, (x.map Prod.fst).Nodup → (∀ p ∈ x, 0 ≤ p.2) →
      (K.map (fun k => vget x k)).sum ≤ sumv x := by
  intro x
  induction x with
  | nil =>
    intro _ _
    simp [vget, sumv, List.lookup]
  | cons q rest ih =>
    obtain ⟨a, v⟩ := q
    intro hnd hpos
    rw [List.map_cons, List.nodup_cons] at hnd
    have hv : 0 ≤ v := hpos (a, v) (by simp)
    have hsplit : ∀ k ∈ K, vget ((a, v) :: rest) k
        = vget rest k + (if k = a then v else 0) := by
      intro k _
      rw [vget_cons]
      by_cases hka : k = a
      · subst hka
        rw [if_pos rfl, if_pos rfl, vget_eq_zero_of_not_mem_keys hnd.1, zero_add]
      · rw [if_neg hka, if_neg hka, add_zero]
    calc (K.map (fun k => vget ((a, v) :: rest) k)).sum
        = (K.map (fun k => vget rest k + (if k = a then v else 0))).sum := by
          exact congrArg List.sum (List.map_congr_left hsplit)
      _ = (K.map (fun k => vget rest k)).sum
            + (K.map (fun k => if k = a then v else 0)).sum :=
          sum_map_add_distrib K _ _
      _ ≤ sumv rest + v :=
          add_le_add (ih hnd.2 (fun p hp => hpos p (List.mem_cons_of_mem _ hp)))
            (sum_ite_le hK hv)
      _ = sumv ((a, v) :: rest) := by simp [sumv]; ring

theorem sumv_nonneg {x : SparseVec} (hx : ∀ p ∈ x, 0 ≤ p.2) : 0 ≤ sumv x :=
  List.sum_nonneg (by
    intro a ha
    rcases List.mem_map.mp ha with ⟨p, hp, rfl⟩
    exact hx p hp)

theorem dictdot_nonneg {x y : SparseVec} (hx : ∀ p ∈ x, 0 ≤ p.2)
    (hy : ∀ p ∈ y, 0 ≤ p.2) : 0 ≤ dictdot x y := by
  unfold dictdot
  refine List.sum_nonneg ?_
  intro a ha
  rcases List.mem_map.mp ha with ⟨k, _, rfl⟩
  exact mul_nonneg (vget_nonneg hx k) (vget_nonneg hy k)

theorem dictdot_le_sumv_left {x y : SparseVec}
    (hxnd : (x.map Prod.fst).Nodup) (hynd : (y.map Prod.fst).Nodup)
    (hx0 : ∀ p ∈ x, 0 ≤ p.2) (hy0 : ∀ p ∈ y, 0 ≤ p.2)
    (hy1 : ∀ p ∈ y, p.2 ≤ 1) : dictdot x y ≤ sumv x := by
  unfold dictdot
  have hterm : ∀ K : List String, K.Nodup →
      (K.map (fun k => vget x k * vget y k)).sum ≤ sumv x := by
    intro K hK
    calc (K.map (fun k => vget x k * vget y k)).sum
        ≤ (K.map (fun k => vget x k)).sum :=
          List.sum_le_sum (fun k _ =>
            mul_le_of_le_one_right (vget_nonneg hx0 k) (vget_le_one hy1 k))
      _ ≤ sumv x := sum_vget_le hK hxnd hx0
  by_cases hl : x.length < y.length
  · simpa [hl] using hterm (x.map Prod.fst) hxnd
  · simpa [hl] using hterm (y.map Prod.fst) hynd

theorem dictdot_le_sumv_right {x y : SparseVec}
    (hxnd : (x.map Prod.fst).Nodup) (hynd : (y.map Prod.fst).Nodup)
    (hx0 : ∀ p ∈ x, 0 ≤ p.2) (hy0 : ∀ p ∈ y, 0 ≤ p.2)
    (hx1 : ∀ p ∈ x, p.2 ≤ 1) : dictdot x y ≤ sumv y := by
  unfold dictdot
  have hterm : ∀ K : List String, K.Nodup →
      (K.map (fun k => vget x k * vget y k)).sum ≤ sumv y := by
    intro K hK
    calc (K.map (fun k => vget x k * vget y k)).sum
        ≤ (K.map (fun k => vget y k)).sum :=
          List.sum_le_sum (fun k _ =>
            mul_le_of_le_one_left (vget_nonneg hy0 k) (vget_le_one hx1 k))
      _ ≤ sumv y := sum_vget_le hK hynd hy0
  by_cases hl : x.length < y.length
  · simpa [hl] using hterm (x.map Prod.fst) hxnd
  · simpa [hl] using hterm (y.map Prod.fst) hynd

/-- **C3, counterexample.**  With the non-negatively weighted input
`x = y = {"a": 3}` the claim fails for all three measures at once:
`dice_sim = 3 > 1`, `jaccard_sim = -3 < 0` (its denominator is `-3`, not the
sentinel case) and `overlap_sim = 3 > 1`. -/
theorem similarity_unit_interval_counterexample :
    (∀ p ∈ ([("a", 3)] : SparseVec), 0 ≤ p.2) ∧
      1 < dice_sim [("a", 3)] [("a", 3)] ∧
      jaccard_sim [("a", 3)] [("a", 3)] < 0 ∧
      1 < overlap_sim [("a", 3)] [("a", 3)] := by
  refine ⟨by decide, ?_, ?_, ?_⟩ <;>
    norm_num [dice_sim, jaccard_sim, overlap_sim, dictdot, sumv, vget, List.lookup]

/-- **C3, amended.**  For sparse vectors with pairwise-distinct keys (the dict
invariant) whose weights all lie in `[0, 1]` — instead of merely being
non-negative — each of `dice_sim`, `jaccard_sim` and `overlap_sim` returns a
value in `[0, 1]`; the jaccard zero-denominator sentinel `1/10000000` also
lies in `[0, 1]`, so no exception is needed. -/
theorem similarity_unit_interval_amended (x y : SparseVec)
    (hxnd : (x.map Prod.fst).Nodup) (hynd : (y.map Prod.fst).Nodup)
    (hx : ∀ p ∈ x, 0 ≤ p.2 ∧ p.2 ≤ 1) (hy : ∀ p ∈ y, 0 ≤ p.2 ∧ p.2 ≤ 1) :
    (0 ≤ dice_sim x y ∧ dice_sim x y ≤ 1) ∧
      (0 ≤ jaccard_sim x y ∧ jaccard_sim x y ≤ 1) ∧
      (0 ≤ overlap_sim x y ∧ overlap_sim x y ≤ 1) := by
  have hx0 : ∀ p ∈ x, 0 ≤ p.2 := fun p hp => (hx p hp).1
  have hx1 : ∀ p ∈ x, p.2 ≤ 1 := fun p hp => (hx p hp).2
  have hy0 : ∀ p ∈ y, 0 ≤ p.2 := fun p hp => (hy p hp).1
  have hy1 : ∀ p ∈ y, p.2 ≤ 1 := fun p hp => (hy p hp).2
  have hdot0 : 0 ≤ dictdot x y := dictdot_nonneg hx0 hy0
  have hdx : dictdot x y ≤ sumv x := dictdot_le_sumv_left hxnd hynd hx0 hy0 hy1
  have hdy : dictdot x y ≤ sumv y := dictdot_le_sumv_right hxnd hynd hx0 hy0 hx1
  have hsx : 0 ≤ sumv x := sumv_nonneg hx0
  have hsy : 0 ≤ sumv y := sumv_nonneg hy0
  refine ⟨?_, ?_, ?_⟩
  · unfold dice_sim
    by_cases hnum : dictdot x y = 0
    · simp [hnum]
    · rw [if_neg hnum]
      constructor
      · exact div_nonneg (by linarith) (by linarith)
      · rcases eq_or_lt_of_le (add_nonneg hsx hsy) with hden | hden
        · rw [← hden, div_zero]
          norm_num
        · rw [div_le_one hden]
          linarith
  · unfold jaccard_sim
    by_cases hnum : dictdot x y = 0
    · simp [hnum]
    · rw [if_neg hnum]
      by_cases hden : sumv x + sumv y - dictdot x y = 0
      · rw [if_pos hden]
        norm_num
      · rw [if_neg hden]
        have hdenpos : 0 < sumv x + sumv y - dictdot x y := by
          rcases lt_or_eq_of_le (by linarith : (0 : ℚ) ≤ sumv x + sumv y - dictdot x y)
            with h | h
          · exact h
          · exact absurd h.symm hden
        constructor
        · exact div_nonneg hdot0 (le_of_lt hdenpos)
        · rw [div_le_one hdenpos]
          linarith
  · unfold overlap_sim
    by_cases hnum : dictdot x y = 0
    · simp [hnum]
    · rw [if_neg hnum]
      have hdotpos : 0 < dictdot x y := lt_of_le_of_ne hdot0 (Ne.symm hnum)
      have hminpos : 0 < min (sumv x) (sumv y) := lt_min_iff.mpr ⟨by linarith, by linarith⟩
      constructor
      · exact div_nonneg hdot0 (le_of_lt hminpos)
      · rw [div_le_one hminpos]
        exact le_min hdx hdy

/-- Witness for the amended C3: concrete vectors with distinct keys and
weights in `[0, 1]`. -/
theorem similarity_unit_interval_amended_witness :
    (0 ≤ dice_sim [("a", 1)] [("a", 1), ("b", 1/2)]
        ∧ dice_sim [("a", 1)] [("a", 1), ("b", 1/2)] ≤ 1) ∧
      (0 ≤ jaccard_sim [("a", 1)] [("a", 1), ("b", 1/2)]
        ∧ jaccard_sim [("a", 1)] [("a", 1), ("b", 1/2)] ≤ 1) ∧
      (0 ≤ overlap_sim [("a", 1)] [("a", 1), ("b", 1/2)]
        ∧ overlap_sim [("a", 1)] [("a", 1), ("b", 1/2)] ≤ 1) :=
  similarity_unit_interval_amended _ _ (by decide) (by decide)
    (by norm_num) (by norm_num)

/-! ## C2: the ranker returns a stable descending full permutation -/

theorem le_fst_of_mem_enumFrom {α : Type*} :
    ∀ (l : List α) (n : ℕ) (p : ℕ × α), p ∈ List.enumFrom n l → n ≤ p.1 := by
  intro l
  induction l with
  | nil => intro n p hp; simp [List.enumFrom] at hp
  | cons a l ih =>
    intro n p hp
    rcases List.mem_cons.mp hp with rfl | hp'
    · exact le_refl n
    · exact le_trans (Nat.le_succ n) (ih (n + 1) p hp')

theorem pairwise_fst_lt_enumFrom {α : Type*} :
    ∀ (l : List α) (n : ℕ),
      (List.enumFrom n l).Pairwise (fun p q => p.1 < q.1) := by
  intro l
  induction l with
  | nil => intro n; simp [List.enumFrom]
  | cons a l ih =>
    intro n
    refine List.Pairwise.cons ?_ (ih (n + 1))
    intro q hq
    exact lt_of_lt_of_le (Nat.lt_succ_self n) (le_fst_of_mem_enumFrom l (n + 1) q hq)

theorem pairwise_fst_lt_results_with_score (dv : List SparseVec) (qv : SparseVec)
    (sim : SparseVec → SparseVec → ℚ) :
    (results_with_score dv qv sim).Pairwise (fun p q => p.1 < q.1) := by
  unfold results_with_score
  rw [List.pairwise_map]
  refine List.Pairwise.imp ?_ (pairwise_fst_lt_enumFrom dv 0)
  intro p q h
  simpa using Nat.add_lt_add_right h 1

theorem stable_orderedInsert_pairwise (a : ℕ × ℚ) :
    ∀ l : List (ℕ × ℚ),
      l.Pairwise (fun p q => q.2 ≤ p.2 ∧ (p.2 = q.2 → p.1 < q.1)) →
      (∀ b ∈ l, a.1 < b.1) →
      (l.orderedInsert (fun p q => -p.2 ≤ -q.2) a).Pairwise
        (fun p q => q.2 ≤ p.2 ∧ (p.2 = q.2 → p.1 < q.1)) := by
  intro l
  induction l with
  | nil => intro _ _; simp
  | cons b l ih =>
    intro hpw hid
    rw [List.pairwise_cons] at hpw
    obtain ⟨hb, hl⟩ := hpw
    by_cases hr : -a.2 ≤ -b.2
    · rw [List.orderedInsert, if_pos hr]
      have hba : b.2 ≤ a.2 := by linarith [neg_le_neg_iff.mp hr]
      refine List.Pairwise.cons ?_ (List.Pairwise.cons hb hl)
      intro y hy
      rcases List.mem_cons.mp hy with rfl | hy'
      · exact ⟨hba, fun _ => hid y (by simp)⟩
      · exact ⟨le_trans (hb y hy').1 hba, fun _ => hid y (List.mem_cons_of_mem _ hy')⟩
    · rw [List.orderedInsert, if_neg hr]
      have hab : a.2 < b.2 := by
        have := lt_of_not_le hr
        linarith [neg_lt_neg_iff.mp this]
      refine List.Pairwise.cons ?_ (ih hl (fun y hy => hid y (List.mem_cons_of_mem _ hy)))
      intro y hy
      rcases (List.mem_orderedInsert _).mp hy with rfl | hy'
      · exact ⟨le_of_lt hab, fun h => absurd h.symm (ne_of_lt hab)⟩
      · exact hb y hy'

theorem stable_insertionSort_pairwise :
    ∀ l : List (ℕ × ℚ), l.Pairwise (fun p q => p.1 < q.1) →
      (l.insertionSort (fun p q => -p.2 ≤ -q.2)).Pairwise
        (fun p q => q.2 ≤ p.2 ∧ (p.2 = q.2 → p.1 < q.1)) := by
  intro l
  induction l with
  | nil => intro _; simp
  | cons a l ih =>
    intro hpw
    rw [List.pairwise_cons] at hpw
    obtain ⟨ha, hl⟩ := hpw
    rw [List.insertionSort]
    refine stable_orderedInsert_pairwise a _ (ih hl) ?_
    intro b hb
    exact ha b ((List.perm_insertionSort _ l).mem_iff.mp hb)

theorem results_with_score_map_fst (dv : List SparseVec) (qv : SparseVec)
    (sim : SparseVec → SparseVec → ℚ) :
    (results_with_score dv qv sim).map Prod.fst = List.range' 1 dv.length := by
  unfold results_with_score
  rw [List.map_map]
  have h1 : (Prod.fst ∘ fun p : ℕ × SparseVec => (p.1 + 1, sim qv p.2))
      = (fun i => i + 1) ∘ Prod.fst := rfl
  rw [h1, ← List.map_map, List.enum_map_fst, List.range'_eq_map_range]
  exact List.map_congr_left (fun i _ => Nat.add_comm i 1)

/-- **C2.** For every ordered sequence of document vectors, query vector and
similarity function, `search` returns a permutation of the document ids
`1..n` (id = input index + 1, the full corpus, no truncation), and the scored
list it reads the ids from is sorted by descending similarity score and is
stable: whenever two documents have exactly equal scores, the one with the
smaller id (i.e. the earlier input index) comes first. -/
theorem search_ranking_sorted_stable (dv : List SparseVec) (qv : SparseVec)
    (sim : SparseVec → SparseVec → ℚ) :
    (search dv qv sim).Perm (List.range' 1 dv.length) ∧
      (sortedResults dv qv sim).Pairwise
        (fun a b => b.2 ≤ a.2 ∧ (a.2 = b.2 → a.1 < b.1)) := by
  constructor
  · have hperm : (sortedResults dv qv sim).Perm (results_with_score dv qv sim) :=
      List.perm_insertionSort _ _
    have h := hperm.map Prod.fst
    rw [results_with_score_map_fst] at h
    exact h
  · exact stable_insertionSort_pairwise _ (pairwise_fst_lt_results_with_score dv qv sim)

/-! ## C5: the normalized-precision formula -/

theorem findRank_eq {l : List ℕ} {r : ℕ} (h : r ∈ l) :
    ∀ c, findRank l r c = some (l.findIdx (fun x => x = r) + c) := by
  induction l with
  | nil => simp at h
  | cons j rest ih =>
    intro c
    by_cases hjr : j = r
    · subst hjr
      simp [findRank, List.findIdx_cons]
    · have hr : r ∈ rest := by
        rcases List.mem_cons.mp h with rfl | hr
        · exact absurd rfl hjr
        · exact hr
      rw [findRank, if_neg hjr, ih hr (c + 1), List.findIdx_cons]
      simp [hjr]
      omega

theorem calc_rank_eq {results relevant : List ℕ}
    (h : ∀ r ∈ relevant, r ∈ results) :
    calc_rank results relevant
      = relevant.map (fun r => results.findIdx (fun x => x = r) + 1) := by
  induction relevant with
  | nil => rfl
  | cons r rest ih =>
    rw [calc_rank, findRank_eq (h r (by simp)) 1]
    simp only [List.map_cons]
    rw [ih (fun q hq => h q (List.mem_cons_of_mem _ hq))]

theorem getD_range_sum {M : Type*} [AddCommMonoid M] :
    ∀ l : List M, ((List.range l.length).map (fun i => l.getD i 0)).sum = l.sum := by
  intro l
  induction l with
  | nil => simp
  | cons a l ih =>
    rw [List.length_cons, List.range_succ_eq_map, List.map_cons, List.map_map,
      List.sum_cons]
    have h : (fun i => (a :: l).getD i 0) ∘ Nat.succ = fun i => l.getD i 0 := by
      funext i
      simp
    rw [h, ih]
    simp

theorem getD_range_sum_of_length {M : Type*} [AddCommMonoid M] (l : List M) (n : ℕ)
    (h : l.length = n) : ((List.range n).map (fun i => l.getD i 0)).sum = l.sum := by
  subst h
  exact getD_range_sum l

/-- **C5.** `norm_precision` computes the logarithmic normalized-precision
formula: with `N` the results length, `Rel` the relevance-list length,
`0 < Rel < N`, and every relevant id occurring exactly once in the results,
the returned value is
`1 - (sum(log rank_i) - sum(log 1..Rel)) / (N log N - (N-Rel) log (N-Rel) - Rel log Rel)`
where `rank_i` is the 1-based position of the i-th relevant id in the
results, positions taken in relevance-list order.  The statement is
parametric in the interpretation `log : ℤ → K` of `np.log` (and in the field
`K`), so it holds in particular for the real logarithm. -/
theorem norm_precision_log_formula {K : Type*} [Field K] (log : ℤ → K)
    (results relevant : List ℕ) (h1 : 0 < relevant.length)
    (h2 : relevant.length < results.length)
    (h3 : ∀ r ∈ relevant, results.count r = 1) :
    norm_precision log results relevant =
      1 - (((relevant.map
              (fun r : ℕ => log ((results.findIdx (fun x => x = r) : ℤ) + 1))).sum
            - ((List.range relevant.length).map (fun i : ℕ => log ((i : ℤ) + 1))).sum)
          / ((results.length : K) * log (results.length : ℤ)
             - (((results.length : ℤ) - (relevant.length : ℤ)) : K)
               * log ((results.length : ℤ) - (relevant.length : ℤ))
             - (relevant.length : K) * log (relevant.length : ℤ))) := by
  have hmem : ∀ r ∈ relevant, r ∈ results := by
    intro r hr
    have := h3 r hr
    exact List.count_pos_iff.mp (by omega)
  unfold norm_precision
  dsimp only
  rw [calc_rank_eq hmem]
  rw [getD_range_sum_of_length
    ((relevant.map (fun r => results.findIdx (fun x => x = r) + 1)).map
      (fun x : ℕ => log (x : ℤ))) relevant.length (by simp)]
  rw [getD_range_sum_of_length
    ((List.range relevant.length).map (fun i => log ((i + 1 : ℕ) : ℤ)))
    relevant.length (by simp)]
  simp only [List.map_map, Function.comp_def]
  push_cast
  ring_nf

/-- Witness for C5 at the spec's own worked scenario: `relevant = [2, 5]`,
ranks 2 and 4 in a 10-long ranking, evaluated with `log` interpreted as the
integer-cast function, giving `1 - ((2 + 4) - (1 + 2)) / (100 - 64 - 4)`. -/
theorem norm_precision_log_formula_witness :
    norm_precision (fun z => (z : ℚ)) [3, 2, 7, 5, 1, 4, 6, 8, 9, 10] [2, 5]
      = 29 / 32 := by
  have h := norm_precision_log_formula (fun z => (z : ℚ))
    [3, 2, 7, 5, 1, 4, 6, 8, 9, 10] [2, 5] (by decide) (by decide) (by decide)
  rw [h]
  norm_num [List.findIdx_cons, List.range_succ]

/-! ## C1: precision_at interpolates between the bracketing points -/

theorem achievedPoints_recall_lb (relevant : List ℕ) :
    ∀ (l : List ℕ) (tp c : ℕ) (p : ℚ × ℚ), p ∈ achievedPoints relevant l tp c →
      ((tp + 1 : ℕ) : ℚ) / (relevant.length : ℚ) ≤ p.1 := by
  intro l
  induction l with
  | nil => intro tp c p hp; simp [achievedPoints] at hp
  | cons i rest ih =>
    intro tp c p hp
    by_cases hi : i ∈ relevant
    · simp only [achievedPoints, if_pos hi] at hp
      rcases List.mem_cons.mp hp with rfl | hp'
      · exact le_refl _
      · refine le_trans ?_ (ih (tp + 1) (c + 1) p hp')
        rcases Nat.eq_zero_or_pos relevant.length with h0 | h0
        · simp [h0]
        · have hRq : (0 : ℚ) < (relevant.length : ℚ) := by exact_mod_cast h0
          rw [div_le_div_right hRq]
          push_cast
          linarith
    · simp only [achievedPoints, if_neg hi] at hp
      exact ih tp (c + 1) p hp

theorem achievedPoints_ne_nil (relevant : List ℕ) :
    ∀ (l : List ℕ) (tp c : ℕ), (∃ i ∈ l, i ∈ relevant) →
      achievedPoints relevant l tp c ≠ [] := by
  intro l
  induction l with
  | nil => intro tp c h; simp at h
  | cons i rest ih =>
    intro tp c ⟨j, hj, hjr⟩
    by_cases hi : i ∈ relevant
    · simp [achievedPoints, if_pos hi]
    · have hj' : j ∈ rest := by
        rcases List.mem_cons.mp hj with rfl | hj'
        · exact absurd hjr hi
        · exact hj'
      simpa [achievedPoints, if_neg hi] using ih tp (c + 1) ⟨j, hj', hjr⟩

theorem getLastD_mem {α : Type*} : ∀ (l : List α) (d : α), l ≠ [] → l.getLastD d ∈ l := by
  intro l
  induction l with
  | nil => intro d h; exact absurd rfl h
  | cons a l ih =>
    intro d _
    rcases eq_or_ne l [] with rfl | hne
    · simp
    · rw [List.getLastD_cons]
      exact List.mem_cons_of_mem _ (ih a hne)

theorem paLoop_eq_brackets (t : ℚ) (relevant : List ℕ) (hR : 0 < relevant.length) :
    ∀ (l : List ℕ) (tp c : ℕ) (lr lp : ℚ),
      paLoop t relevant l lr lp tp c =
        ((((achievedPoints relevant l tp c).filter
            (fun p => p.1 ≤ t)).getLastD (lr, lp)).1,
         (((achievedPoints relevant l tp c).filter
            (fun p => p.1 ≤ t)).getLastD (lr, lp)).2,
         ((((achievedPoints relevant l tp c).filter
            (fun p => t < p.1)).head?).getD (0, 1)).1,
         ((((achievedPoints relevant l tp c).filter
            (fun p => t < p.1)).head?).getD (0, 1)).2) := by
  have hRq : (0 : ℚ) < (relevant.length : ℚ) := by exact_mod_cast hR
  intro l
  induction l with
  | nil => intro tp c lr lp; simp [paLoop, achievedPoints]
  | cons i rest ih =>
    intro tp c lr lp
    by_cases hi : i ∈ relevant
    · by_cases hb : t < ((tp + 1 : ℕ) : ℚ) / (relevant.length : ℚ)
      · have hnle : ¬ (((tp + 1 : ℕ) : ℚ) / (relevant.length : ℚ) ≤ t) := not_le.mpr hb
        have hempty : (achievedPoints relevant rest (tp + 1) (c + 1)).filter
            (fun p => p.1 ≤ t) = [] := by
          rw [List.filter_eq_nil_iff]
          intro p hp
          have hlb := achievedPoints_recall_lb relevant rest (tp + 1) (c + 1) p hp
          have h12 : ((tp + 1 : ℕ) : ℚ) / (relevant.length : ℚ)
              < ((tp + 1 + 1 : ℕ) : ℚ) / (relevant.length : ℚ) := by
            rw [div_lt_div_right hRq]
            push_cast
            linarith
          simp only [decide_eq_true_eq, not_le]
          exact lt_of_lt_of_le (lt_trans hb h12) hlb
        simp only [paLoop, if_pos hi, if_pos hb, achievedPoints]
        rw [List.filter_cons, List.filter_cons]
        push_cast at hnle hb hempty ⊢
        simp [hnle, hb, hempty]
      · have hle : ((tp + 1 : ℕ) : ℚ) / (relevant.length : ℚ) ≤ t := not_lt.mp hb
        simp only [paLoop, if_pos hi, if_neg hb, achievedPoints]
        rw [ih (tp + 1) (c + 1)]
        rw [List.filter_cons, List.filter_cons]
        rw [if_pos (by simpa using hle), if_neg (by simpa using hb)]
        rw [List.getLastD_cons]
    · simp only [paLoop, if_neg hi, achievedPoints]
      exact ih tp (c + 1) lr lp

/-- **C1.** For every ranked results list, non-empty relevance list whose ids
all occur in the results, and target recall in `[0, 1]`, `precision_at`
succeeds and returns exactly
`lower_p + (upper_p - lower_p) * (t - lower_r) / (upper_r - lower_r)`,
where the lower bracket is the last achieved (recall, precision) point of the
scan with recall ≤ target and the upper bracket is the first achieved point
with recall strictly greater than the target — each defaulting to the
implicit anchor `(0, 1)` when no such point exists (for the lower bracket:
before any relevant document is seen; for the upper: at target recall 1,
where the loop's untouched initial upper state is that same anchor).  The
scan stops at the upper bracketing point: `paLoop` never inspects results
past it (`paLoop_eq_brackets`). -/
theorem precision_at_bracket_interpolation (results relevant : List ℕ) (t : ℚ)
    (hne : relevant ≠ []) (hsub : ∀ r ∈ relevant, r ∈ results)
    (h0 : 0 ≤ t) (h1 : t ≤ 1) :
    precision_at t results relevant =
      .ok ((lowerBracket t (prPoints results relevant)).2
        + ((upperBracket t (prPoints results relevant)).2
            - (lowerBracket t (prPoints results relevant)).2)
          * (t - (lowerBracket t (prPoints results relevant)).1)
          / ((upperBracket t (prPoints results relevant)).1
            - (lowerBracket t (prPoints results relevant)).1)) := by
  have hR : 0 < relevant.length := List.length_pos.mpr hne
  have hloop : paLoop t relevant results 0 1 0 0 =
      ((lowerBracket t (prPoints results relevant)).1,
       (lowerBracket t (prPoints results relevant)).2,
       (upperBracket t (prPoints results relevant)).1,
       (upperBracket t (prPoints results relevant)).2) := by
    rw [paLoop_eq_brackets t relevant hR results 0 0 0 1]
    rfl
  set pts := prPoints results relevant with hpts
  set L := lowerBracket t pts with hLdef
  set U := upperBracket t pts with hUdef
  have hdiff : U.1 - L.1 ≠ 0 := by
    rcases hhead : (pts.filter (fun p => t < p.1)).head? with _ | u
    · have hfil : pts.filter (fun p => t < p.1) = [] := List.head?_eq_none_iff.mp hhead
      have hU01 : U = ((0 : ℚ), (1 : ℚ)) := by
        rw [hUdef, upperBracket, hhead]
        rfl
      have hallle : ∀ p ∈ pts, p.1 ≤ t := by
        intro p hp
        have := List.filter_eq_nil_iff.mp hfil p hp
        simpa using this
      have hr0 : ∃ r, r ∈ relevant := by
        rcases relevant with _ | ⟨a, l⟩
        · exact absurd rfl hne
        · exact ⟨a, by simp⟩
      obtain ⟨r0, hr0⟩ := hr0
      have hptsne : pts ≠ [] :=
        achievedPoints_ne_nil relevant results 0 0 ⟨r0, hsub r0 hr0, hr0⟩
      have hfle : pts.filter (fun p => p.1 ≤ t) = pts := by
        rw [List.filter_eq_self]
        intro p hp
        simpa using hallle p hp
      have hLmem : L ∈ pts := by
        rw [hLdef, lowerBracket, hfle]
        exact getLastD_mem pts (0, 1) hptsne
      have hLpos : 0 < L.1 := by
        have hlb := achievedPoints_recall_lb relevant results 0 0 L hLmem
        have hRq : (0 : ℚ) < (relevant.length : ℚ) := by exact_mod_cast hR
        have hpos : (0 : ℚ) < ((0 + 1 : ℕ) : ℚ) / (relevant.length : ℚ) := by
          positivity
        linarith
      rw [hU01]
      simpa using (ne_of_gt hLpos)
    · have hu : u ∈ pts.filter (fun p => t < p.1) := List.mem_of_mem_head? hhead
      have huP := List.mem_filter.mp hu
      have hut : t < u.1 := by simpa using huP.2
      have hUu : U = u := by
        rw [hUdef, upperBracket, hhead]
        rfl
      have hLle : L.1 ≤ t := by
        rcases eq_or_ne (pts.filter (fun p => p.1 ≤ t)) [] with hfl | hfl
        · have hL01 : L = ((0 : ℚ), (1 : ℚ)) := by
            rw [hLdef, lowerBracket, hfl]
            rfl
          rw [hL01]
          exact h0
        · have hLmem : L ∈ pts.filter (fun p => p.1 ≤ t) := by
            rw [hLdef, lowerBracket]
            exact getLastD_mem _ _ hfl
          have := (List.mem_filter.mp hLmem).2
          simpa using this
      rw [hUu]
      exact sub_ne_zero.mpr (ne_of_gt (lt_of_le_of_lt hLle hut))
  unfold precision_at
  rw [hloop]
  unfold interpolate
  dsimp only
  rw [if_neg hdiff]
  congr 1
  field_simp
  ring

/-- Witness for C1 at a concrete input: `results = [3, 2, 7, 5, 1]`,
`relevant = [2, 5]`, target recall `1/2`; the hypotheses are discharged by
computation. -/
theorem precision_at_bracket_interpolation_witness :
    precision_at (1 / 2) [3, 2, 7, 5, 1] [2, 5] =
      .ok ((lowerBracket (1 / 2) (prPoints [3, 2, 7, 5, 1] [2, 5])).2
        + ((upperBracket (1 / 2) (prPoints [3, 2, 7, 5, 1] [2, 5])).2
            - (lowerBracket (1 / 2) (prPoints [3, 2, 7, 5, 1] [2, 5])).2)
          * (1 / 2 - (lowerBracket (1 / 2) (prPoints [3, 2, 7, 5, 1] [2, 5])).1)
          / ((upperBracket (1 / 2) (prPoints [3, 2, 7, 5, 1] [2, 5])).1
            - (lowerBracket (1 / 2) (prPoints [3, 2, 7, 5, 1] [2, 5])).1)) :=
  precision_at_bracket_interpolation [3, 2, 7, 5, 1] [2, 5] (1 / 2)
    (by decide) (by decide) (by norm_num) (by norm_num)

end HW2
